import Mathlib

/-!
Verification development for the release-ingestion pipeline of a
GitHub-releases Telegram bot (Go sources: `cmd/bot/main.go`,
`internal/github/client.go`, `internal/telegram/sender.go`, the `compose`
and `db` packages).

Modelling conventions:
* Go strings are modelled as `List Char` (rune granularity; the sources
  only exercise byte/rune-coincident ASCII in every place where `len` or
  slicing matters for the properties proved here).
* Go `time.Time` instants are modelled as `Int`; the zero value of
  `time.Time` is `0` and `Time.Before` is `<`.
* Fallible collaborators (HTTP fetch, Telegram send) are modelled as
  explicit function parameters returning `Option`.
-/

abbrev Str := List Char

/-- The Go regexp character class `\s` = `[\t\n\f\r ]`. -/
def reSpace (c : Char) : Bool :=
  c = ' ' || c = '\t' || c = '\n' || c = Char.ofNat 12 || c = '\r'

/-- `unicode.IsSpace` restricted to ASCII, as used by `strings.TrimSpace`. -/
def goIsSpace (c : Char) : Bool :=
  c = ' ' || c = '\t' || c = '\n' || c = Char.ofNat 11 || c = Char.ofNat 12 || c = '\r'

/-- `strings.TrimSpace`. -/
def trimSpace (s : Str) : Str :=
  ((s.dropWhile goIsSpace).reverse.dropWhile goIsSpace).reverse

/-- `strings.ToLower` (ASCII fragment). -/
def toLowerChar (c : Char) : Char :=
  if 'A' ≤ c ∧ c ≤ 'Z' then Char.ofNat (c.toNat + 32) else c

def toLower (s : Str) : Str := s.map toLowerChar

/-- `strings.Contains s sub`. -/
def containsSub : Str → Str → Bool
  | [], sub => sub.isPrefixOf []
  | c :: t, sub => sub.isPrefixOf (c :: t) || containsSub t sub

/-- `html.EscapeString`, character by character. -/
def escapeChar (c : Char) : Str :=
  if c = '&' then ("&amp;".data)
  else if c = Char.ofNat 39 then ("&#39;".data)
  else if c = '<' then ("&lt;".data)
  else if c = '>' then ("&gt;".data)
  else if c = '"' then ("&#34;".data)
  else [c]

def escapeString (s : Str) : Str := s.flatMap escapeChar

/-- The regexp replacement `\s+` → `" "` of `stripFormatting`: every maximal
run of `\s` characters becomes a single space.  `inRun` records whether the
previous character belonged to a whitespace run already replaced. -/
def collapseWSAux (inRun : Bool) : Str → Str
  | [] => []
  | c :: t =>
    if reSpace c then
      if inRun then collapseWSAux true t
      else ' ' :: collapseWSAux true t
    else c :: collapseWSAux false t

def collapseWS (s : Str) : Str := collapseWSAux false s

/-- The regexp replacement `[_*~#>]+` → `""` of `stripFormatting`. -/
def removeMdChars (s : Str) : Str :=
  s.filter (fun c => !(c = '_' || c = '*' || c = '~' || c = '#' || c = '>'))

/-- Removal of backtick characters (code point 96) of `stripFormatting`. -/
def removeBackticks (s : Str) : Str :=
  s.filter (fun c => !(c = Char.ofNat 96))

/-- One leftmost match of the link regexp `\[([^\]]+)\]\([^)]+\)` at the head
of the string: returns the captured visible text and the remainder. -/
def matchLink (s : Str) : Option (Str × Str) :=
  match s with
  | '[' :: t =>
    let text := t.takeWhile (fun c => !(c = ']'))
    if text.isEmpty then none
    else
      match t.dropWhile (fun c => !(c = ']')) with
      | ']' :: '(' :: u =>
        let url := u.takeWhile (fun c => !(c = ')'))
        if url.isEmpty then none
        else
          match u.dropWhile (fun c => !(c = ')')) with
          | ')' :: v => some (text, v)
          | _ => none
      | _ => none
  | _ => none

theorem matchLink_rest_lt {s text rest : Str}
    (h : matchLink s = some (text, rest)) : rest.length < s.length := by
  match s with
  | [] => simp [matchLink] at h
  | c :: t =>
    by_cases hc : c = '['
    · subst hc
      simp only [matchLink] at h
      by_cases h1 : (t.takeWhile (fun c => !(c = ']'))).isEmpty
      · simp [h1] at h
      · simp only [h1, if_false] at h
        have hd1 := (List.dropWhile_sublist (l := t) (fun c => !(c = ']'))).length_le
        match h2 : t.dropWhile (fun c => !(c = ']')) with
        | [] => rw [h2] at h; simp at h
        | [x] => rw [h2] at h; split at h <;> simp_all
        | x :: y :: u =>
          rw [h2] at h
          by_cases hx : x = ']'
          · by_cases hy : y = '('
            · subst hx; subst hy
              simp only [] at h
              by_cases h3 : (u.takeWhile (fun c => !(c = ')'))).isEmpty
              · simp [h3] at h
              · simp only [h3, if_false] at h
                have hd2 := (List.dropWhile_sublist (l := u) (fun c => !(c = ')'))).length_le
                match h4 : u.dropWhile (fun c => !(c = ')')) with
                | [] => rw [h4] at h; simp at h
                | z :: v =>
                  rw [h4] at h
                  by_cases hz : z = ')'
                  · subst hz
                    simp at h
                    have hrv : v = rest := h.2
                    subst hrv
                    have : v.length + 1 ≤ u.length := by
                      have := congrArg List.length h4
                      simp at this; omega
                    have : u.length + 2 ≤ t.length := by
                      have := congrArg List.length h2
                      simp at this; omega
                    simp only [List.length_cons]
                    omega
                  · simp [hz] at h
            · simp [hx, hy] at h
          · simp [hx] at h
    · simp only [matchLink] at h
      split at h <;> simp_all

/-- Leftmost non-overlapping replacement of `\[([^\]]+)\]\([^)]+\)` by its
captured text, as `regexp.ReplaceAllString` performs it.  The structural
`fuel` only guards termination: each step strictly shrinks the string, so
`fuel = s.length` always suffices (`replaceLinksFuel_irrel`). -/
def replaceLinksFuel : Nat → Str → Str
  | 0, s => s
  | _ + 1, [] => []
  | fuel + 1, c :: t =>
    match matchLink (c :: t) with
    | some (text, rest) => text ++ replaceLinksFuel fuel rest
    | none => c :: replaceLinksFuel fuel t

def replaceLinks (s : Str) : Str := replaceLinksFuel s.length s

theorem replaceLinksFuel_irrel (f1 : Nat) : ∀ (f2 : Nat) (s : Str),
    s.length ≤ f1 → s.length ≤ f2 → replaceLinksFuel f1 s = replaceLinksFuel f2 s := by
  induction f1 with
  | zero =>
    intro f2 s h1 _
    have hs : s = [] := List.eq_nil_of_length_eq_zero (Nat.le_zero.mp h1)
    subst hs
    cases f2 <;> rfl
  | succ f1 ih =>
    intro f2 s h1 h2
    match s with
    | [] => cases f2 <;> rfl
    | c :: t =>
      match f2 with
      | 0 => exact absurd h2 (by simp)
      | f2 + 1 =>
        simp only [replaceLinksFuel]
        match hm : matchLink (c :: t) with
        | some (text, rest) =>
          have hlt := matchLink_rest_lt hm
          simp only [List.length_cons] at h1 h2 hlt
          simp only []
          rw [ih f2 rest (by omega) (by omega)]
        | none =>
          simp only [List.length_cons] at h1 h2
          simp only []
          rw [ih f2 t (by omega) (by omega)]

/-- One leftmost match of the image regexp `!\[([^\]]*)\]\([^)]+\)` at the
head of the string (the alt text may be empty). -/
def matchImage (s : Str) : Option (Str × Str) :=
  match s with
  | '!' :: '[' :: t =>
    let text := t.takeWhile (fun c => !(c = ']'))
    match t.dropWhile (fun c => !(c = ']')) with
    | ']' :: '(' :: u =>
      let url := u.takeWhile (fun c => !(c = ')'))
      if url.isEmpty then none
      else
        match u.dropWhile (fun c => !(c = ')')) with
        | ')' :: v => some (text, v)
        | _ => none
    | _ => none
  | _ => none

theorem matchImage_rest_lt {s text rest : Str}
    (h : matchImage s = some (text, rest)) : rest.length < s.length := by
  match s with
  | [] => simp [matchImage] at h
  | [c] => simp [matchImage] at h
  | c :: d :: t =>
    by_cases hc : c = '!'
    · by_cases hd : d = '['
      · subst hc; subst hd
        simp only [matchImage] at h
        have hd1 := (List.dropWhile_sublist (l := t) (fun c => !(c = ']'))).length_le
        match h2 : t.dropWhile (fun c => !(c = ']')) with
        | [] => rw [h2] at h; simp at h
        | [x] => rw [h2] at h; split at h <;> simp_all
        | x :: y :: u =>
          rw [h2] at h
          by_cases hx : x = ']'
          · by_cases hy : y = '('
            · subst hx; subst hy
              simp only [] at h
              by_cases h3 : (u.takeWhile (fun c => !(c = ')'))).isEmpty
              · simp [h3] at h
              · simp only [h3, if_false] at h
                have hd2 := (List.dropWhile_sublist (l := u) (fun c => !(c = ')'))).length_le
                match h4 : u.dropWhile (fun c => !(c = ')')) with
                | [] => rw [h4] at h; simp at h
                | z :: v =>
                  rw [h4] at h
                  by_cases hz : z = ')'
                  · subst hz
                    simp at h
                    have hrv : v = rest := h.2
                    subst hrv
                    have : v.length + 1 ≤ u.length := by
                      have := congrArg List.length h4
                      simp at this; omega
                    have : u.length + 2 ≤ t.length := by
                      have := congrArg List.length h2
                      simp at this; omega
                    simp only [List.length_cons]
                    omega
                  · simp [hz] at h
            · simp [hx, hy] at h
          · simp [hx] at h
      · simp only [matchImage] at h
        split at h <;> simp_all
    · simp only [matchImage] at h
      split at h <;> simp_all

/-- Leftmost non-overlapping replacement of `!\[([^\]]*)\]\([^)]+\)` by its
captured alt text; fuel as in `replaceLinksFuel`. -/
def replaceImagesFuel : Nat → Str → Str
  | 0, s => s
  | _ + 1, [] => []
  | fuel + 1, c :: t =>
    match matchImage (c :: t) with
    | some (text, rest) => text ++ replaceImagesFuel fuel rest
    | none => c :: replaceImagesFuel fuel t

def replaceImages (s : Str) : Str := replaceImagesFuel s.length s

theorem replaceImagesFuel_irrel (f1 : Nat) : ∀ (f2 : Nat) (s : Str),
    s.length ≤ f1 → s.length ≤ f2 → replaceImagesFuel f1 s = replaceImagesFuel f2 s := by
  induction f1 with
  | zero =>
    intro f2 s h1 _
    have hs : s = [] := List.eq_nil_of_length_eq_zero (Nat.le_zero.mp h1)
    subst hs
    cases f2 <;> rfl
  | succ f1 ih =>
    intro f2 s h1 h2
    match s with
    | [] => cases f2 <;> rfl
    | c :: t =>
      match f2 with
      | 0 => exact absurd h2 (by simp)
      | f2 + 1 =>
        simp only [replaceImagesFuel]
        match hm : matchImage (c :: t) with
        | some (text, rest) =>
          have hlt := matchImage_rest_lt hm
          simp only [List.length_cons] at h1 h2 hlt
          simp only []
          rw [ih f2 rest (by omega) (by omega)]
        | none =>
          simp only [List.length_cons] at h1 h2
          simp only []
          rw [ih f2 t (by omega) (by omega)]

/-- `compose.stripFormatting`: markdown removal, whitespace collapse, trim,
then HTML escaping, in the source's order. -/
def stripFormatting (s : Str) : Str :=
  escapeString (trimSpace (collapseWS (replaceImages (replaceLinks
    (removeMdChars (removeBackticks s))))))

/-- `strings.Split` with a one-character separator. -/
def splitChar (sep : Char) : Str → List Str
  | [] => [[]]
  | c :: t =>
    match splitChar sep t with
    | [] => [[]]
    | p :: ps => if c = sep then [] :: p :: ps else (c :: p) :: ps

/-- `[a-f0-9]` (applied by `isSkippableBullet` to the lowercased bullet). -/
def isHexChar (c : Char) : Bool :=
  ('a' ≤ c && c ≤ 'f') || ('0' ≤ c && c ≤ '9')

/-- Whether the regexp `[a-f0-9]{8,}` matches somewhere in the string. -/
def hasHexRun8 : Str → Bool
  | [] => false
  | c :: t =>
    (((c :: t).take 8).length == 8 && ((c :: t).take 8).all isHexChar)
      || hasHexRun8 t

/-- `compose.isSkippableBullet`: the changelog noise filter. -/
def isSkippableBullet (bullet : Str) : Bool :=
  let b := toLower bullet
  if containsSub b ("sha".data) || hasHexRun8 b then true
  else if (containsSub b ("bump".data) || containsSub b ("update".data))
       && (containsSub b ("version".data) || containsSub b ("dependency".data)) then true
  else if containsSub b (".zip".data) || containsSub b (".tar.gz".data)
       || containsSub b (".exe".data) || containsSub b ("<!-- ".data) then true
  else if b.length < 15 || b.length > 200 then true
  else false

/-- A bullet marker character of the regexp class in bulletRe. -/
def isBulletMark (c : Char) : Bool :=
  c = '-' || c = '*' || c = '•'

/-- Per-line effect of `bulletRe = (?m)^\s*[-*•]\s+(.+)$` followed by
`strings.TrimSpace` on the capture: a line matches exactly when, after
optional leading whitespace, a bullet marker is followed by one whitespace
character and at least one further character; the trimmed capture is then
the trimmed remainder after that whitespace character. -/
def bulletLineContent (line : Str) : Option Str :=
  match line.dropWhile reSpace with
  | b :: w :: r =>
    if isBulletMark b && reSpace w && !r.isEmpty then some (trimSpace r)
    else none
  | _ => none

/-- 140-character truncation with ellipsis of `TakeBullets`. -/
def truncBullet (b : Str) : Str :=
  if b.length > 140 then b.take 140 ++ ['…'] else b

/-- The bullet-scanning loop of `compose.TakeBullets`: `count` bullets have
been collected so far; the loop stops once `maxBullets` is reached (checked
after each append, as in the source). -/
def collectBullets (maxBullets : Nat) : List Str → Nat → List Str
  | [], _ => []
  | line :: rest, count =>
    match bulletLineContent line with
    | none => collectBullets maxBullets rest count
    | some cap =>
      let b := stripFormatting cap
      if isSkippableBullet b then collectBullets maxBullets rest count
      else
        let b2 := truncBullet b
        if !b2.isEmpty && b2.length > 10 then
          if maxBullets ≤ count + 1 then [b2]
          else b2 :: collectBullets maxBullets rest (count + 1)
        else collectBullets maxBullets rest count

/-- >80% of ASCII letters uppercase (`compose.isAllCaps`); the float
comparison `upper/letters > 0.8` is expressed as `5*upper > 4*letters`,
with which it coincides on all feasible counts. -/
def isAllCaps (s : Str) : Bool :=
  if s.length < 3 then false
  else
    let upper := (s.filter (fun c => 'A' ≤ c && c ≤ 'Z')).length
    let letters := (s.filter (fun c => ('A' ≤ c && c ≤ 'Z') || ('a' ≤ c && c ≤ 'z'))).length
    if letters == 0 then false
    else 4 * letters < 5 * upper

/-- 200-character cap with ellipsis of `extractParagraphs`. -/
def capParagraph (p : Str) : Str :=
  if p.length > 200 then p.take 200 ++ ['…'] else p

/-- The paragraph-collection loop of `compose.extractParagraphs`. -/
def collectParagraphs (maxBullets : Nat) : List Str → Nat → List Str
  | [], _ => []
  | p :: rest, count =>
    let para := trimSpace p
    if para.length < 10 then collectParagraphs maxBullets rest count
    else if ("#".data).isPrefixOf para || isAllCaps para then
      collectParagraphs maxBullets rest count
    else
      let para2 := capParagraph para
      if maxBullets ≤ count + 1 then [para2]
      else para2 :: collectParagraphs maxBullets rest (count + 1)

/-- `compose.extractParagraphs`: fallback extraction when no bullet lines
were found. -/
def extractParagraphs (md : Str) (maxBullets maxChars : Nat) : List Str :=
  let text := stripFormatting md
  let text2 := if text.length > maxChars then text.take maxChars ++ ['…'] else text
  collectParagraphs maxBullets (splitChar ('\n') text2) 0

/-- `compose.TakeBullets`: the changelog summarizer. -/
def takeBullets (md : Str) (maxBullets maxChars : Nat) : List Str :=
  let bullets := collectBullets maxBullets (splitChar ('\n') md) 0
  if bullets.isEmpty then extractParagraphs md maxBullets maxChars
  else bullets

/-! ## Notification composer (`compose.BuildHTML`) -/

structure ComposeOptions where
  maxBullets : Nat
  maxChars : Nat

/-- Input of `compose.BuildHTML`.  The publication instant and the
configured time zone enter the output only through the formatted date
string, which `buildHTML` therefore receives already rendered (`dateStr`
below stands for `in.Published.In(loc).Format("2006-01-02 15:04")`). -/
structure ComposeInput where
  repoFull : Str
  tag : Str
  url : Str
  bodyMD : Str
  advisor : Str

/-- `fmt.Sprintf "%d"` of a natural count. -/
def natDecimal (n : Nat) : Str := (toString n).data

/-- The bullet-rendering loop of `BuildHTML` over the first
`maxToShow` bullets. -/
def renderBullets : List Str → Str
  | [] => []
  | b :: rest => (if !b.isEmpty then ("\n▪️ ".data) ++ b else []) ++ renderBullets rest

/-- The bullet block of `BuildHTML`: at most 4 bullets are displayed and a
"+N more" note is appended when more were extracted. -/
def bulletSection (bullets : List Str) : Str :=
  if bullets.length > 0 then
    renderBullets (bullets.take (min bullets.length 4))
      ++ (if bullets.length > 4 then
            ("\n<i>... и ещё ".data) ++ natDecimal (bullets.length - 4)
              ++ (" изменений</i>".data)
          else [])
      ++ ("\n".data)
  else []

/-- The trailing advisor block of `BuildHTML`. -/
def advisorSection (advisor : Str) : Str :=
  if !(trimSpace advisor).isEmpty then ("\n\n💡 ".data) ++ escapeString advisor
  else []

/-- `compose.BuildHTML`.  Note that the changelog-link line starts with a
literal backslash-n: the Go source writes it inside a raw string literal.
The release URL is interpolated verbatim (not escaped), exactly as in the
source. -/
def buildHTML (inp : ComposeInput) (opt : ComposeOptions) (dateStr : Str) : Str :=
  let bullets := takeBullets inp.bodyMD opt.maxBullets opt.maxChars
  ("🔥 <b>".data) ++ escapeString inp.repoFull ++ ("</b> ".data)
    ++ ("<a href=\"".data) ++ inp.url ++ ("\">".data) ++ escapeString inp.tag
    ++ ("</a>\n".data)
    ++ ("📅 ".data) ++ dateStr ++ ("\n".data)
    ++ bulletSection bullets
    ++ ("\\n<a href=\"".data) ++ inp.url ++ ("\">📖 Полный changelog</a>".data)
    ++ advisorSection inp.advisor

/-! ## Source client (`internal/github`) -/

/-- `github.Release`.  `publishedAt : Int` models the `time.Time` instant;
the zero `time.Time` value is `0` and `Time.Before` is `<`. -/
structure Release where
  id : Int
  tagName : Str
  name : Str
  body : Str
  draft : Bool
  prerelease : Bool
  htmlURL : Str
  publishedAt : Int
deriving DecidableEq

/-- `github.ReleasesResponse`. -/
structure ReleasesResponse where
  statusCode : Int
  etag : Str
  releases : List Release
deriving DecidableEq

/-- The filter step of `Client.FilterAndSortReleases`: a release is kept
iff it is not a draft, is not an untracked prerelease, and has a non-zero
publication instant. -/
def keepRelease (trackPrereleases : Bool) (r : Release) : Bool :=
  !r.draft && !(r.prerelease && !trackPrereleases) && !(r.publishedAt == 0)

/-- Insertion of one release into a list sorted ascending by publication
instant. -/
def insertByPublished (r : Release) : List Release → List Release
  | [] => [r]
  | x :: xs =>
    if r.publishedAt < x.publishedAt then r :: x :: xs
    else x :: insertByPublished r xs

/-- Ascending insertion sort by publication instant.  `sort.Slice` with
`less i j = a[i].PublishedAt.Before(a[j].PublishedAt)` guarantees exactly a
permutation of its input ordered by that comparison (it is not stable);
this deterministic sort realises that contract. -/
def sortByPublished : List Release → List Release
  | [] => []
  | r :: rs => insertByPublished r (sortByPublished rs)

/-- `github.Client.FilterAndSortReleases`. -/
def filterAndSortReleases (releases : List Release) (trackPrereleases : Bool) :
    List Release :=
  sortByPublished (releases.filter (keepRelease trackPrereleases))

/-! ## Delivery channel (`internal/telegram/sender.go`) -/

/-- Index of the last occurrence of `c` in a list, if any. -/
def lastIdxOf (c : Char) : Str → Option Nat
  | [] => none
  | x :: xs =>
    match lastIdxOf c xs with
    | some j => some (j + 1)
    | none => if x = c then some 0 else none

/-- The scanning loops of `findBreakPoint`: the last index `i` with
`i < maxSize` and `i < len(text)` at which `c` occurs. -/
def lastIdxBelow (text : Str) (c : Char) (bound : Nat) : Option Nat :=
  lastIdxOf c (text.take bound)

/-- `telegram.findBreakPoint`; `none` models the Go result `-1`. -/
def findBreakPoint (text : Str) (maxSize : Nat) : Option Nat :=
  if text.length ≤ maxSize then some text.length
  else
    match lastIdxBelow text ('\n') maxSize with
    | some j =>
      if maxSize / 2 < j then some (j + 1)
      else
        match lastIdxBelow text (' ') maxSize with
        | some k => if maxSize / 2 < k then some (k + 1) else none
        | none => none
    | none =>
      match lastIdxBelow text (' ') maxSize with
      | some k => if maxSize / 2 < k then some (k + 1) else none
      | none => none

/-- The break point actually used by `chunkHTML`: `findBreakPoint`, with
`-1` replaced by the hard `maxSize` boundary. -/
def chunkPoint (rem : Str) (maxSize : Nat) : Nat :=
  (findBreakPoint rem maxSize).getD maxSize

/-- The boundary-whitespace trimming between chunks of `chunkHTML`. -/
def dropBoundaryWS (s : Str) : Str :=
  s.dropWhile (fun c => c = '\n' || c = ' ')

/-- The splitting loop of `chunkHTML`.  The structural `fuel` only guards
termination: with `1 ≤ maxSize` every iteration strictly shrinks the
remainder, so `fuel = rem.length` always suffices (the loop in the Go
source does not terminate at all for `maxSize = 0`; it is only called with
`maxSize = 4000`). -/
def chunkLoop : Nat → Str → Nat → List Str
  | 0, rem, _ => if rem.length > 0 then [rem] else []
  | fuel + 1, rem, maxSize =>
    if maxSize < rem.length then
      let bp := chunkPoint rem maxSize
      rem.take bp :: chunkLoop fuel (dropBoundaryWS (rem.drop bp)) maxSize
    else if rem.length > 0 then [rem] else []

/-- `telegram.chunkHTML`. -/
def chunkHTML (text : Str) (maxSize : Nat) : List Str :=
  if text.length ≤ maxSize then [text]
  else chunkLoop text.length text maxSize

/-- `telegram.isPermanentError` (the sender-side classifier). -/
def isPermanentError (errStr : Str) : Bool :=
  let e := toLower errStr
  containsSub e ("chat not found".data)
    || containsSub e ("bot was blocked by the user".data)
    || containsSub e ("user is deactivated".data)
    || containsSub e ("text must be encoded in utf-8".data)
    || containsSub e ("message is too long".data)
    || containsSub e ("bad request: can\x27t parse entities".data)
    || containsSub e ("forbidden".data)

/-! ## Persistent ledger (`internal/db`)

The store is modelled as in-memory tables; the success path of every SQL
operation is embedded (query errors abort the enclosing step in the source
without mutating state and are outside the properties proved here). -/

structure Repository where
  owner : Str
  name : Str
  trackPrereleases : Bool
deriving DecidableEq

structure Chat where
  id : Int
  title : Str
  language : Str
deriving DecidableEq

structure ProcessedRelease where
  repoOwner : Str
  repoName : Str
  releaseId : Int
  tagName : Str
  publishedAt : Int
deriving DecidableEq

structure ETagRow where
  repoOwner : Str
  repoName : Str
  etag : Str
deriving DecidableEq

structure Store where
  repos : List Repository
  chats : List Chat
  processed : List ProcessedRelease
  etags : List ETagRow
deriving DecidableEq

/-- Ascending insertion by chat id (`ListChats`: `ORDER BY id`). -/
def insertChatById (c : Chat) : List Chat → List Chat
  | [] => [c]
  | x :: xs => if c.id < x.id then c :: x :: xs else x :: insertChatById c xs

def sortChatsById : List Chat → List Chat
  | [] => []
  | c :: cs => insertChatById c (sortChatsById cs)

/-- `Store.ListChats`. -/
def Store.listChats (s : Store) : List Chat := sortChatsById s.chats

/-- `Store.IsProcessed`: existence check on the composite primary key
`(repo_owner, repo_name, release_id)`. -/
def Store.isProcessed (s : Store) (o n : Str) (rid : Int) : Bool :=
  s.processed.any fun p => decide (p.repoOwner = o ∧ p.repoName = n ∧ p.releaseId = rid)

/-- `Store.MarkProcessed`: `INSERT OR REPLACE` keyed on
`(repo_owner, repo_name, release_id)`. -/
def Store.markProcessed (s : Store) (o n : Str) (rid : Int) (tag : Str) (pub : Int) :
    Store :=
  { s with processed :=
      (s.processed.filter fun p =>
        !decide (p.repoOwner = o ∧ p.repoName = n ∧ p.releaseId = rid))
      ++ [⟨o, n, rid, tag, pub⟩] }

/-- `Store.RemoveChat`: `DELETE FROM chats WHERE id = ?`. -/
def Store.removeChat (s : Store) (chatId : Int) : Store :=
  { s with chats := s.chats.filter fun c => !decide (c.id = chatId) }

/-- `Store.GetETag` (empty string when no row exists). -/
def Store.getETag (s : Store) (o n : Str) : Str :=
  match s.etags.find? (fun e => decide (e.repoOwner = o ∧ e.repoName = n)) with
  | some e => e.etag
  | none => []

/-- `Store.PutETag`: `INSERT OR REPLACE` keyed on `(repo_owner, repo_name)`. -/
def Store.putETag (s : Store) (o n : Str) (etag : Str) : Store :=
  { s with etags :=
      (s.etags.filter fun e => !decide (e.repoOwner = o ∧ e.repoName = n))
      ++ [⟨o, n, etag⟩] }

/-! ## Ingestion orchestrator (`cmd/bot/main.go`)

The per-repository and per-release steps are embedded as pure state
transformers that additionally emit a trace of observable events: every
summarizer call, advisor call, composer call, delivery-channel send
attempt, chat removal, processed-marker write and revalidation-token write
appears in the trace. -/

inductive Event where
  | summarized (releaseId : Int)
  | advised (releaseId : Int)
  | composed (releaseId : Int)
  | sent (releaseId : Int) (publishedAt : Int) (chatId : Int)
  | chatRemoved (chatId : Int)
  | marked (owner name : Str) (releaseId : Int)
  | etagStored (owner name : Str) (etag : Str)
deriving DecidableEq

/-- The collaborators and configuration of one cycle.  `fetch` models
`github.Client.ListReleases` (argument: the stored revalidation token;
`none` is a fetch error), `send` models `telegram.Sender.SendHTML`
(`some e` is a failure with error text `e`), `advise` the optional LLM
advisor, `formatDate` the time-zone-dependent date rendering, and `cutoff`
the instant `now.AddDate(0, 0, -cfg.MaxReleaseAgeDays)`. -/
structure Env where
  fetch : Repository → Str → Option ReleasesResponse
  send : Int → Str → Option Str
  advise : Str → Str → List Str → Str
  advisorEnabled : Bool
  formatDate : Int → Str
  maxBullets : Nat
  maxChars : Nat
  cutoff : Int

/-- `main.isPermanentTelegramError`: the orchestrator-side classifier that
triggers chat pruning. -/
def isPermanentTelegramError (errStr : Str) : Bool :=
  let e := toLower errStr
  containsSub e ("chat not found".data)
    || containsSub e ("bot was blocked by the user".data)
    || containsSub e ("user is deactivated".data)
    || containsSub e ("forbidden".data)

/-- `fmt.Sprintf("%s/%s", repo.Owner, repo.Name)`. -/
def repoFullName (repo : Repository) : Str := repo.owner ++ ('/' :: repo.name)

/-- The delivery loop of `processRelease` over the chat list: send, and on
a permanent failure remove the chat from the ledger. -/
def sendLoop (env : Env) (msg : Str) (rid pub : Int) :
    Store → List Chat → Store × List Event
  | store, [] => (store, [])
  | store, c :: rest =>
    match env.send c.id msg with
    | none =>
      let p := sendLoop env msg rid pub store rest
      (p.1, Event.sent rid pub c.id :: p.2)
    | some e =>
      if isPermanentTelegramError e then
        let p := sendLoop env msg rid pub (store.removeChat c.id) rest
        (p.1, Event.sent rid pub c.id :: Event.chatRemoved c.id :: p.2)
      else
        let p := sendLoop env msg rid pub store rest
        (p.1, Event.sent rid pub c.id :: p.2)

/-- The advisor result used for a release (empty when the advisor is
disabled, as `advice` then keeps its zero value). -/
def adviceFor (env : Env) (repo : Repository) (r : Release) : Str :=
  if env.advisorEnabled then
    env.advise (repoFullName repo) r.tagName
      (takeBullets r.body env.maxBullets env.maxChars)
  else []

/-- The message `processRelease` composes and sends for a release. -/
def composeFor (env : Env) (repo : Repository) (r : Release) : Str :=
  buildHTML ⟨repoFullName repo, r.tagName, r.htmlURL, r.body, adviceFor env repo r⟩
    ⟨env.maxBullets, env.maxChars⟩ (env.formatDate r.publishedAt)

/-- `main.processRelease`. -/
def processRelease (env : Env) (store : Store) (repo : Repository) (r : Release) :
    Store × List Event :=
  if store.isProcessed repo.owner repo.name r.id then (store, [])
  else
    let adviceEvents := if env.advisorEnabled then [Event.advised r.id] else []
    let p := sendLoop env (composeFor env repo r) r.id r.publishedAt store store.listChats
    (p.1.markProcessed repo.owner repo.name r.id r.tagName r.publishedAt,
      Event.summarized r.id :: (adviceEvents ++ Event.composed r.id :: p.2)
        ++ [Event.marked repo.owner repo.name r.id])

/-- One iteration of the release loop of `processRepository`: releases
older than the age cutoff are marked processed without any further
processing; all others go through `processRelease`. -/
def stepRelease (env : Env) (store : Store) (repo : Repository) (r : Release) :
    Store × List Event :=
  if r.publishedAt < env.cutoff then
    (store.markProcessed repo.owner repo.name r.id r.tagName r.publishedAt,
      [Event.marked repo.owner repo.name r.id])
  else processRelease env store repo r

/-- The release loop of `processRepository`. -/
def releasesLoop (env : Env) (repo : Repository) :
    Store → List Release → Store × List Event
  | store, [] => (store, [])
  | store, r :: rest =>
    let p := stepRelease env store repo r
    let q := releasesLoop env repo p.1 rest
    (q.1, p.2 ++ q.2)

/-- `main.processRepository`. -/
def processRepository (env : Env) (store : Store) (repo : Repository) :
    Store × List Event :=
  match env.fetch repo (store.getETag repo.owner repo.name) with
  | none => (store, [])
  | some resp =>
    if resp.statusCode = 304 then (store, [])
    else
      let store1 :=
        if !resp.etag.isEmpty then store.putETag repo.owner repo.name resp.etag
        else store
      let evs1 :=
        if !resp.etag.isEmpty then [Event.etagStored repo.owner repo.name resp.etag]
        else []
      let q := releasesLoop env repo store1
        (filterAndSortReleases resp.releases repo.trackPrereleases)
      (q.1, evs1 ++ q.2)

/-! ## Helper lemmas about the ledger -/

/-- A marker just written is observed by `isProcessed`. -/
theorem isProcessed_markProcessed (s : Store) (o n : Str) (rid : Int) (tag : Str)
    (pub : Int) : (s.markProcessed o n rid tag pub).isProcessed o n rid = true := by
  simp [Store.markProcessed, Store.isProcessed]

/-! ## Concrete fixtures used by witness theorems -/

def repoW : Repository := ⟨("acme".data), ("widget".data), false⟩

def relW : Release :=
  ⟨10, ("v1.2.0".data), [], ("- Add feature X to the engine\n- Fix crash on startup".data),
    false, false, ("https://example.com/rel".data), 500⟩

def chatW : Chat := ⟨7, ("main".data), ("ru".data)⟩

def markerW : ProcessedRelease :=
  ⟨("acme".data), ("widget".data), 10, ("v1.2.0".data), 500⟩

def storeProcessed : Store := ⟨[repoW], [chatW], [markerW], []⟩

def storeFresh : Store := ⟨[repoW], [chatW], [], []⟩

def envW : Env :=
  ⟨fun _ _ => none, fun _ _ => none, fun _ _ _ => [], false, fun _ => [], 8, 2500, 0⟩

/-! ## C1 -/

/-- C1: for a release whose ProcessedMarker already exists under the key
(repoOwner, repoName, releaseId), the per-release step performs nothing at
all — no summarizing, composing, sending or marking (empty event trace)
and no state change — so a marked release is never re-broadcast. -/
theorem processed_release_skipped (env : Env) (store : Store) (repo : Repository)
    (r : Release) (h : store.isProcessed repo.owner repo.name r.id = true) :
    processRelease env store repo r = (store, []) := by
  simp [processRelease, h]

theorem processed_release_skipped_witness :
    storeProcessed.isProcessed repoW.owner repoW.name relW.id = true
    ∧ processRelease envW storeProcessed repoW relW = (storeProcessed, []) :=
  ⟨by decide, processed_release_skipped envW storeProcessed repoW relW (by decide)⟩

/-! ## C2 -/

/-- C2: when the fetch performed with the stored revalidation token
reports 304 Not Modified, processing of the repository stops at once: the
store is unchanged (no ProcessedMarker write, no token overwrite) and the
event trace is empty (no delivery-channel send). -/
theorem notModified_short_circuits (env : Env) (store : Store) (repo : Repository)
    (resp : ReleasesResponse)
    (hfetch : env.fetch repo (store.getETag repo.owner repo.name) = some resp)
    (h304 : resp.statusCode = 304) :
    processRepository env store repo = (store, []) := by
  simp [processRepository, hfetch, h304]

def resp304 : ReleasesResponse := ⟨304, ("W/\x22abc\x22".data), []⟩

def env304 : Env :=
  ⟨fun _ _ => some resp304, fun _ _ => none, fun _ _ _ => [], false, fun _ => [],
    8, 2500, 0⟩

theorem notModified_short_circuits_witness :
    env304.fetch repoW (storeFresh.getETag repoW.owner repoW.name) = some resp304
    ∧ resp304.statusCode = 304
    ∧ processRepository env304 storeFresh repoW = (storeFresh, []) :=
  ⟨rfl, rfl, notModified_short_circuits env304 storeFresh repoW resp304 rfl rfl⟩

/-! ## C7 -/

/-- C7: a release published before the age cutoff
(`now.AddDate(0,0,-MaxReleaseAgeDays)`) is recorded as processed — the
resulting store observes its marker — while the event trace contains only
the marker write: no summarization, no composition, no delivery send. -/
theorem old_release_marked_without_delivery (env : Env) (store : Store)
    (repo : Repository) (r : Release) (h : r.publishedAt < env.cutoff) :
    stepRelease env store repo r =
      (store.markProcessed repo.owner repo.name r.id r.tagName r.publishedAt,
        [Event.marked repo.owner repo.name r.id])
    ∧ (stepRelease env store repo r).1.isProcessed repo.owner repo.name r.id = true := by
  have he : stepRelease env store repo r =
      (store.markProcessed repo.owner repo.name r.id r.tagName r.publishedAt,
        [Event.marked repo.owner repo.name r.id]) := by
    simp [stepRelease, h]
  refine ⟨he, ?_⟩
  rw [he]
  exact isProcessed_markProcessed store repo.owner repo.name r.id r.tagName r.publishedAt

def envOldCutoff : Env :=
  ⟨fun _ _ => none, fun _ _ => none, fun _ _ _ => [], false, fun _ => [], 8, 2500, 1000⟩

theorem old_release_marked_without_delivery_witness :
    relW.publishedAt < envOldCutoff.cutoff
    ∧ (stepRelease envOldCutoff storeFresh repoW relW =
        (storeFresh.markProcessed repoW.owner repoW.name relW.id relW.tagName
          relW.publishedAt,
          [Event.marked repoW.owner repoW.name relW.id])
      ∧ (stepRelease envOldCutoff storeFresh repoW relW).1.isProcessed repoW.owner
          repoW.name relW.id = true) :=
  ⟨by decide, old_release_marked_without_delivery envOldCutoff storeFresh repoW relW
    (by decide)⟩

/-! ## C4 -/

/-- C4: on the markup `"- Fix bug in parser\n- Improve startup time by
10%\n- abc123def456 checksum update"` with `maxBullets = 8` (and any
`maxChars`, which the bullet path does not consult), the extractor returns
exactly the first two cleaned bullets; the third line is rejected by the
hash-like hex-token filter. -/
theorem bullet_extraction_concrete (maxChars : Nat) :
    takeBullets
      (("- Fix bug in parser\n- Improve startup time by 10%\n- abc123def456 checksum update").data)
      8 maxChars
    = [("Fix bug in parser".data), ("Improve startup time by 10%".data)] := by
  have h : collectBullets 8
      (splitChar ('\n')
        (("- Fix bug in parser\n- Improve startup time by 10%\n- abc123def456 checksum update").data))
      0
      = [("Fix bug in parser".data), ("Improve startup time by 10%".data)] := by decide
  simp [takeBullets, h]

/-! ## Substring machinery for the noise filter -/

theorem containsSub_spec (s sub : Str) : containsSub s sub = true ↔ sub <:+: s := by
  induction s with
  | nil => simp [containsSub, List.isPrefixOf_iff_prefix]
  | cons c t ih =>
    simp [containsSub, List.isPrefixOf_iff_prefix, ih, List.infix_cons_iff]

theorem infix_concat_elim {sub xs : Str} {c : Char} (hc : c ∉ sub)
    (h : sub <:+: xs ++ [c]) : sub <:+: xs := by
  rcases List.infix_concat_iff.mp h with hs | hi
  · rcases List.suffix_concat_iff.mp hs with he | ⟨t, ht, _⟩
    · simp [he]
    · exact absurd (ht ▸ List.mem_append_right t (by simp)) hc
  · exact hi

theorem sha_implies_skippable (b : Str)
    (h : containsSub (toLower b) ("sha".data) = true) :
    isSkippableBullet b = true := by
  simp [isSkippableBullet, h]

theorem no_sha_of_truncBullet {b : Str}
    (h : containsSub (toLower b) ("sha".data) = false) :
    containsSub (toLower (truncBullet b)) ("sha".data) = false := by
  unfold truncBullet
  by_cases hl : b.length > 140
  · rw [if_pos hl]
    by_cases hcon : containsSub (toLower (b.take 140 ++ ['…'])) ("sha".data) = true
    · exfalso
      have hinf := (containsSub_spec _ _).mp hcon
      rw [show toLower (b.take 140 ++ ['…']) = toLower (b.take 140) ++ ['…'] by
        simp [toLower, toLowerChar]] at hinf
      have h1 : ("sha".data) <:+: toLower (b.take 140) :=
        infix_concat_elim (by decide) hinf
      have h2 : toLower (b.take 140) = (toLower b).take 140 := by
        simp [toLower, List.map_take]
      rw [h2] at h1
      have h3 : ("sha".data) <:+: toLower b :=
        h1.trans (List.take_prefix 140 (toLower b)).isInfix
      rw [(containsSub_spec _ _).mpr h3] at h
      exact absurd h (by simp)
    · revert hcon
      cases containsSub (toLower (b.take 140 ++ ['…'])) ("sha".data) <;> simp
  · rw [if_neg hl]; exact h

theorem collectBullets_no_sha (mb : Nat) (lines : List Str) :
    ∀ (count : Nat) (b : Str), b ∈ collectBullets mb lines count →
      containsSub (toLower b) ("sha".data) = false := by
  induction lines with
  | nil => intro count b hb; simp [collectBullets] at hb
  | cons line rest ih =>
    intro count b hb
    rw [collectBullets] at hb
    match hbl : bulletLineContent line with
    | none =>
      rw [hbl] at hb
      exact ih count b hb
    | some cap =>
      rw [hbl] at hb
      simp only [] at hb
      by_cases hskip : isSkippableBullet (stripFormatting cap) = true
      · rw [if_pos hskip] at hb
        exact ih count b hb
      · rw [if_neg hskip] at hb
        have hnos : containsSub (toLower (stripFormatting cap)) ("sha".data) = false := by
          by_cases hc : containsSub (toLower (stripFormatting cap)) ("sha".data) = true
          · exact absurd (sha_implies_skippable _ hc) hskip
          · revert hc; cases containsSub (toLower (stripFormatting cap)) ("sha".data) <;> simp
        have htr := no_sha_of_truncBullet hnos
        by_cases hlen : (!(truncBullet (stripFormatting cap)).isEmpty
            && decide ((truncBullet (stripFormatting cap)).length > 10)) = true
        · rw [if_pos hlen] at hb
          by_cases hcap : mb ≤ count + 1
          · rw [if_pos hcap] at hb
            rw [List.mem_singleton.mp hb]
            exact htr
          · rw [if_neg hcap] at hb
            rcases List.mem_cons.mp hb with hb | hb
            · rw [hb]; exact htr
            · exact ih (count + 1) b hb
        · rw [if_neg hlen] at hb
          exact ih count b hb

/-! ## C10 -/

/-- C10: any bullet whose cleaned, lowercased text contains the letter
sequence "sha" — also inside ordinary words such as "shape" or "shared" —
is classified skippable, and therefore the bullet-scanning path never
returns a bullet whose lowercased text contains that sequence. -/
theorem sha_bullets_never_returned :
    (∀ b : Str, containsSub (toLower b) ("sha".data) = true →
      isSkippableBullet b = true)
    ∧ ∀ (md : Str) (mb mc : Nat) (b : Str),
        collectBullets mb (splitChar ('\n') md) 0 ≠ [] →
        b ∈ takeBullets md mb mc →
        containsSub (toLower b) ("sha".data) = false := by
  refine ⟨sha_implies_skippable, ?_⟩
  intro md mb mc b hne hb
  rw [takeBullets] at hb
  rw [if_neg (by simpa [List.isEmpty_iff] using hne)] at hb
  exact collectBullets_no_sha mb (splitChar ('\n') md) 0 b hb

theorem sha_bullets_never_returned_witness :
    (containsSub (toLower (("Works well with shared caches").data)) ("sha".data) = true
      ∧ isSkippableBullet (("Works well with shared caches").data) = true)
    ∧ (collectBullets 8
        (splitChar ('\n')
          (("- Fix crash on startup quickly\n- Update shared libraries code").data)) 0 ≠ []
      ∧ ("Fix crash on startup quickly".data)
          ∈ takeBullets (("- Fix crash on startup quickly\n- Update shared libraries code").data) 8 2500
      ∧ containsSub (toLower (("Fix crash on startup quickly").data)) ("sha".data) = false) :=
  ⟨⟨by decide, sha_bullets_never_returned.1 (("Works well with shared caches").data) (by decide)⟩,
    by decide,
    by decide,
    sha_bullets_never_returned.2
      (("- Fix crash on startup quickly\n- Update shared libraries code").data) 8 2500
      (("Fix crash on startup quickly").data) (by decide) (by decide)⟩

/-! ## Bullets are never empty (needed for the display-cap property) -/

theorem collectBullets_ne_nil (mb : Nat) (lines : List Str) :
    ∀ (count : Nat) (b : Str), b ∈ collectBullets mb lines count → b ≠ [] := by
  induction lines with
  | nil => intro count b hb; simp [collectBullets] at hb
  | cons line rest ih =>
    intro count b hb
    rw [collectBullets] at hb
    match hbl : bulletLineContent line with
    | none =>
      rw [hbl] at hb
      exact ih count b hb
    | some cap =>
      rw [hbl] at hb
      simp only [] at hb
      by_cases hskip : isSkippableBullet (stripFormatting cap) = true
      · rw [if_pos hskip] at hb
        exact ih count b hb
      · rw [if_neg hskip] at hb
        by_cases hlen : (!(truncBullet (stripFormatting cap)).isEmpty
            && decide ((truncBullet (stripFormatting cap)).length > 10)) = true
        · rw [if_pos hlen] at hb
          have hne : truncBullet (stripFormatting cap) ≠ [] := by
            rcases (Bool.and_eq_true _ _).mp hlen with ⟨h1, _⟩
            simpa [List.isEmpty_iff] using h1
          by_cases hcap : mb ≤ count + 1
          · rw [if_pos hcap] at hb
            rw [List.mem_singleton.mp hb]
            exact hne
          · rw [if_neg hcap] at hb
            rcases List.mem_cons.mp hb with hb | hb
            · rw [hb]; exact hne
            · exact ih (count + 1) b hb
        · rw [if_neg hlen] at hb
          exact ih count b hb

theorem collectParagraphs_ne_nil (mb : Nat) (ps : List Str) :
    ∀ (count : Nat) (b : Str), b ∈ collectParagraphs mb ps count → b ≠ [] := by
  induction ps with
  | nil => intro count b hb; simp [collectParagraphs] at hb
  | cons p rest ih =>
    intro count b hb
    rw [collectParagraphs] at hb
    simp only [] at hb
    by_cases hshort : (trimSpace p).length < 10
    · rw [if_pos hshort] at hb
      exact ih count b hb
    · rw [if_neg hshort] at hb
      by_cases hhdr : (("#".data).isPrefixOf (trimSpace p) || isAllCaps (trimSpace p)) = true
      · rw [if_pos hhdr] at hb
        exact ih count b hb
      · rw [if_neg hhdr] at hb
        have hne : capParagraph (trimSpace p) ≠ [] := by
          unfold capParagraph
          by_cases hl : (trimSpace p).length > 200
          · rw [if_pos hl]
            simp
          · rw [if_neg hl]
            intro he
            rw [he] at hshort
            simp at hshort
        by_cases hcap : mb ≤ count + 1
        · rw [if_pos hcap] at hb
          rw [List.mem_singleton.mp hb]
          exact hne
        · rw [if_neg hcap] at hb
          rcases List.mem_cons.mp hb with hb | hb
          · rw [hb]; exact hne
          · exact ih (count + 1) b hb

theorem takeBullets_ne_nil (md : Str) (mb mc : Nat) :
    ∀ b ∈ takeBullets md mb mc, b ≠ [] := by
  intro b hb
  rw [takeBullets] at hb
  by_cases he : (collectBullets mb (splitChar ('\n') md) 0).isEmpty = true
  · rw [if_pos he] at hb
    rw [extractParagraphs] at hb
    exact collectParagraphs_ne_nil mb _ 0 b hb
  · rw [if_neg he] at hb
    exact collectBullets_ne_nil mb _ 0 b hb

theorem renderBullets_eq_flatten (l : List Str) (h : ∀ b ∈ l, b ≠ []) :
    renderBullets l = (l.map (fun b => ("\n▪️ ".data) ++ b)).flatten := by
  induction l with
  | nil => simp [renderBullets]
  | cons b rest ih =>
    have hb : b ≠ [] := h b (List.mem_cons_self b rest)
    rw [renderBullets]
    rw [if_pos (by simpa [List.isEmpty_iff] using hb)]
    rw [ih (fun x hx => h x (List.mem_cons_of_mem b hx))]
    simp

/-! ## C9 -/

/-- C9: the composed message displays at most 4 bullets — exactly
`min n 4` of the `n` extracted ones, whatever `maxBullets` is — and the
"+N more" note (`... и ещё N изменений`) appears exactly when `n > 4`,
with `N = n - 4`. -/
theorem display_cap_and_more_note :
    (∀ (md : Str) (mb mc : Nat),
      bulletSection (takeBullets md mb mc) =
        if 0 < (takeBullets md mb mc).length then
          (((takeBullets md mb mc).take 4).map (fun b => ("\n▪️ ".data) ++ b)).flatten
            ++ (if 4 < (takeBullets md mb mc).length then
                  ("\n<i>... и ещё ".data)
                    ++ natDecimal ((takeBullets md mb mc).length - 4)
                    ++ (" изменений</i>".data)
                else [])
            ++ ("\n".data)
        else [])
    ∧ (∀ (md : Str) (mb mc : Nat),
        ((takeBullets md mb mc).take 4).length = min (takeBullets md mb mc).length 4
        ∧ ((takeBullets md mb mc).take 4).length ≤ 4)
    ∧ ∀ (inp : ComposeInput) (opt : ComposeOptions) (dateStr : Str),
        buildHTML inp opt dateStr =
          ("🔥 <b>".data) ++ escapeString inp.repoFull ++ ("</b> ".data)
            ++ ("<a href=\"".data) ++ inp.url ++ ("\">".data) ++ escapeString inp.tag
            ++ ("</a>\n".data) ++ ("📅 ".data) ++ dateStr ++ ("\n".data)
            ++ bulletSection (takeBullets inp.bodyMD opt.maxBullets opt.maxChars)
            ++ ("\\n<a href=\"".data) ++ inp.url ++ ("\">📖 Полный changelog</a>".data)
            ++ advisorSection inp.advisor := by
  refine ⟨?_, ?_, ?_⟩
  · intro md mb mc
    have htake : (takeBullets md mb mc).take (min (takeBullets md mb mc).length 4)
        = (takeBullets md mb mc).take 4 := by
      rcases Nat.lt_or_ge 4 (takeBullets md mb mc).length with hlt | hle
      · rw [Nat.min_eq_right (Nat.le_of_lt hlt)]
      · rw [Nat.min_eq_left hle, List.take_length, List.take_of_length_le hle]
    have hren : renderBullets ((takeBullets md mb mc).take 4)
        = (((takeBullets md mb mc).take 4).map (fun b => ("\n▪️ ".data) ++ b)).flatten := by
      refine renderBullets_eq_flatten _ (fun b hb => ?_)
      exact takeBullets_ne_nil md mb mc b (List.mem_of_mem_take hb)
    rw [bulletSection, htake, hren]
  · intro md mb mc
    constructor
    · rw [List.length_take, Nat.min_comm]
    · rw [List.length_take]
      omega
  · intro inp opt dateStr
    rfl

/-! ## Sorting lemmas for the release filter/sort -/

theorem insertByPublished_perm (r : Release) (l : List Release) :
    List.Perm (insertByPublished r l) (r :: l) := by
  induction l with
  | nil => exact List.Perm.refl _
  | cons x xs ih =>
    rw [insertByPublished]
    by_cases h : r.publishedAt < x.publishedAt
    · rw [if_pos h]
    · rw [if_neg h]
      exact (ih.cons x).trans (List.Perm.swap r x xs)

theorem sortByPublished_perm (l : List Release) :
    List.Perm (sortByPublished l) l := by
  induction l with
  | nil => exact List.Perm.refl _
  | cons r rs ih =>
    rw [sortByPublished]
    exact (insertByPublished_perm r (sortByPublished rs)).trans (ih.cons r)

theorem insertByPublished_sorted (r : Release) (l : List Release)
    (h : List.Sorted (fun a b : Release => a.publishedAt ≤ b.publishedAt) l) :
    List.Sorted (fun a b : Release => a.publishedAt ≤ b.publishedAt)
      (insertByPublished r l) := by
  induction l with
  | nil => simp [insertByPublished]
  | cons x xs ih =>
    rw [List.sorted_cons] at h
    rw [insertByPublished]
    by_cases hlt : r.publishedAt < x.publishedAt
    · rw [if_pos hlt]
      rw [List.sorted_cons]
      refine ⟨?_, List.sorted_cons.mpr h⟩
      intro b hb
      rcases List.mem_cons.mp hb with hb | hb
      · rw [hb]; exact Int.le_of_lt hlt
      · exact Int.le_trans (Int.le_of_lt hlt) (h.1 b hb)
    · rw [if_neg hlt]
      rw [List.sorted_cons]
      refine ⟨?_, ih h.2⟩
      intro b hb
      rcases List.mem_cons.mp ((insertByPublished_perm r xs).mem_iff.mp hb) with hb | hb
      · rw [hb]; exact Int.not_lt.mp hlt
      · exact h.1 b hb

theorem sortByPublished_sorted (l : List Release) :
    List.Sorted (fun a b : Release => a.publishedAt ≤ b.publishedAt)
      (sortByPublished l) := by
  induction l with
  | nil => simp [sortByPublished]
  | cons r rs ih =>
    rw [sortByPublished]
    exact insertByPublished_sorted r (sortByPublished rs) ih

/-! ## Delivery-order observations -/

/-- The publication instants of the delivery-send events of a trace, in
trace order. -/
def sentTimes (evs : List Event) : List Int :=
  evs.filterMap fun e =>
    match e with
    | Event.sent _ pub _ => some pub
    | _ => none

theorem sentTimes_append (a b : List Event) :
    sentTimes (a ++ b) = sentTimes a ++ sentTimes b := by
  simp [sentTimes]

theorem sendLoop_sentTimes (env : Env) (msg : Str) (rid pub : Int) :
    ∀ (cs : List Chat) (store : Store) (t : Int),
      t ∈ sentTimes (sendLoop env msg rid pub store cs).2 → t = pub := by
  intro cs
  induction cs with
  | nil => intro store t ht; simp [sendLoop, sentTimes] at ht
  | cons c rest ih =>
    intro store t ht
    rw [sendLoop] at ht
    match hs : env.send c.id msg with
    | none =>
      rw [hs] at ht
      simp only [sentTimes, List.filterMap_cons] at ht
      rcases List.mem_cons.mp ht with ht | ht
      · exact ht
      · exact ih store t ht
    | some e =>
      rw [hs] at ht
      simp only [] at ht
      by_cases hp : isPermanentTelegramError e = true
      · rw [if_pos hp] at ht
        simp only [sentTimes, List.filterMap_cons] at ht
        rcases List.mem_cons.mp ht with ht | ht
        · exact ht
        · exact ih (store.removeChat c.id) t ht
      · rw [if_neg hp] at ht
        simp only [sentTimes, List.filterMap_cons] at ht
        rcases List.mem_cons.mp ht with ht | ht
        · exact ht
        · exact ih store t ht

theorem stepRelease_sentTimes (env : Env) (store : Store) (repo : Repository)
    (r : Release) (t : Int) (ht : t ∈ sentTimes (stepRelease env store repo r).2) :
    t = r.publishedAt := by
  rw [stepRelease] at ht
  by_cases hold : r.publishedAt < env.cutoff
  · rw [if_pos hold] at ht
    simp [sentTimes] at ht
  · rw [if_neg hold] at ht
    rw [processRelease] at ht
    by_cases hproc : store.isProcessed repo.owner repo.name r.id = true
    · rw [if_pos hproc] at ht
      simp [sentTimes] at ht
    · rw [if_neg hproc] at ht
      simp only [] at ht
      have heq : sentTimes ((Event.summarized r.id ::
          ((if env.advisorEnabled = true then [Event.advised r.id] else [])
            ++ Event.composed r.id ::
              (sendLoop env (composeFor env repo r) r.id r.publishedAt store
                store.listChats).2))
          ++ [Event.marked repo.owner repo.name r.id])
          = sentTimes (sendLoop env (composeFor env repo r) r.id r.publishedAt store
              store.listChats).2 := by
        by_cases hadv : env.advisorEnabled = true <;> simp [sentTimes, hadv]
      rw [heq] at ht
      exact sendLoop_sentTimes env _ r.id r.publishedAt _ _ t ht

theorem releasesLoop_sentTimes_mem (env : Env) (repo : Repository) :
    ∀ (rs : List Release) (store : Store) (t : Int),
      t ∈ sentTimes (releasesLoop env repo store rs).2 →
      ∃ r ∈ rs, t = r.publishedAt := by
  intro rs
  induction rs with
  | nil => intro store t ht; simp [releasesLoop, sentTimes] at ht
  | cons r rest ih =>
    intro store t ht
    rw [releasesLoop] at ht
    simp only [] at ht
    rw [sentTimes_append] at ht
    rcases List.mem_append.mp ht with ht | ht
    · exact ⟨r, List.mem_cons_self r rest, stepRelease_sentTimes env store repo r t ht⟩
    · rcases ih _ t ht with ⟨r2, hr2, heq⟩
      exact ⟨r2, List.mem_cons_of_mem r hr2, heq⟩

theorem sorted_of_all_eq (c : Int) (l : List Int) (h : ∀ x ∈ l, x = c) :
    List.Sorted (fun a b : Int => a ≤ b) l := by
  induction l with
  | nil => simp
  | cons x xs ih =>
    rw [List.sorted_cons]
    refine ⟨?_, ih (fun y hy => h y (List.mem_cons_of_mem x hy))⟩
    intro b hb
    rw [h x (List.mem_cons_self x xs), h b (List.mem_cons_of_mem x hb)]

/-! ## C3 -/

/-- C3: `FilterAndSortReleases` keeps exactly the non-draft releases with
a non-zero publication instant whose prerelease flag is cleared or tracked
(as a permutation of the input filter), returns them ascending by
publication instant, and consequently the send events of the release loop
over its output are emitted in chronological order. -/
theorem filter_sort_chronological :
    (∀ (releases : List Release) (track : Bool),
      List.Perm (filterAndSortReleases releases track)
        (releases.filter (fun r =>
          decide (r.draft = false ∧ r.publishedAt ≠ 0 ∧
            (r.prerelease = false ∨ track = true)))))
    ∧ (∀ (releases : List Release) (track : Bool),
        List.Sorted (fun a b : Release => a.publishedAt ≤ b.publishedAt)
          (filterAndSortReleases releases track))
    ∧ ∀ (env : Env) (repo : Repository) (store : Store) (rs : List Release),
        List.Sorted (fun a b : Release => a.publishedAt ≤ b.publishedAt) rs →
        List.Sorted (fun a b : Int => a ≤ b)
          (sentTimes (releasesLoop env repo store rs).2) := by
  refine ⟨?_, ?_, ?_⟩
  · intro releases track
    have hfeq : releases.filter (keepRelease track) =
        releases.filter (fun r =>
          decide (r.draft = false ∧ r.publishedAt ≠ 0 ∧
            (r.prerelease = false ∨ track = true))) := by
      apply List.filter_congr
      intro r _
      have hbeq : (r.publishedAt == 0) = decide (r.publishedAt = 0) := by
        by_cases h0 : r.publishedAt = 0 <;> simp [h0]
      cases hr : r.draft <;> cases hp : r.prerelease <;> cases track <;>
        simp [keepRelease, hr, hp, hbeq]
    rw [filterAndSortReleases, hfeq] at *
    rw [← hfeq]
    exact (sortByPublished_perm _).trans (hfeq ▸ List.Perm.refl _)
  · intro releases track
    rw [filterAndSortReleases]
    exact sortByPublished_sorted _
  · intro env repo store rs
    revert store
    induction rs with
    | nil => intro store _; simp [releasesLoop, sentTimes]
    | cons r rest ih =>
      intro store hs
      rw [List.sorted_cons] at hs
      rw [releasesLoop]
      simp only []
      rw [sentTimes_append]
      rw [List.Sorted, List.pairwise_append]
      refine ⟨?_, ih _ hs.2, ?_⟩
      · exact sorted_of_all_eq r.publishedAt _
          (fun x hx => stepRelease_sentTimes env store repo r x hx)
      · intro x hx y hy
        rcases releasesLoop_sentTimes_mem env repo rest _ y hy with ⟨r2, hr2, heq⟩
        rw [stepRelease_sentTimes env store repo r x hx, heq]
        exact hs.1 r2 hr2

def relEarly : Release :=
  ⟨21, ("v0.1.0".data), [], ("- First feature of the engine".data), false, false,
    ("https://example.com/a".data), 100⟩

def relLate : Release :=
  ⟨22, ("v0.2.0".data), [], ("- Second feature of the engine".data), false, false,
    ("https://example.com/b".data), 200⟩

theorem filter_sort_chronological_witness :
    List.Sorted (fun a b : Release => a.publishedAt ≤ b.publishedAt) [relEarly, relLate]
    ∧ List.Sorted (fun a b : Int => a ≤ b)
        (sentTimes (releasesLoop envW repoW storeFresh [relEarly, relLate]).2) :=
  ⟨by decide,
    filter_sort_chronological.2.2 envW repoW storeFresh [relEarly, relLate] (by decide)⟩

/-! ## Chat-pruning lemmas -/

theorem insertChatById_perm (c : Chat) (l : List Chat) :
    List.Perm (insertChatById c l) (c :: l) := by
  induction l with
  | nil => exact List.Perm.refl _
  | cons x xs ih =>
    rw [insertChatById]
    by_cases h : c.id < x.id
    · rw [if_pos h]
    · rw [if_neg h]
      exact (ih.cons x).trans (List.Perm.swap c x xs)

theorem sortChatsById_perm (l : List Chat) : List.Perm (sortChatsById l) l := by
  induction l with
  | nil => exact List.Perm.refl _
  | cons c cs ih =>
    rw [sortChatsById]
    exact (insertChatById_perm c (sortChatsById cs)).trans (ih.cons c)

theorem sendLoop_chats_subset (env : Env) (msg : Str) (rid pub : Int) :
    ∀ (cs : List Chat) (store : Store) (c' : Chat),
      c' ∈ (sendLoop env msg rid pub store cs).1.chats → c' ∈ store.chats := by
  intro cs
  induction cs with
  | nil => intro store c' h; simpa [sendLoop] using h
  | cons c rest ih =>
    intro store c' h
    rw [sendLoop] at h
    match hs : env.send c.id msg with
    | none =>
      rw [hs] at h
      exact ih store c' h
    | some e =>
      rw [hs] at h
      simp only [] at h
      by_cases hp : isPermanentTelegramError e = true
      · rw [if_pos hp] at h
        have h2 := ih (store.removeChat c.id) c' h
        simp only [Store.removeChat, List.mem_filter] at h2
        exact h2.1
      · rw [if_neg hp] at h
        exact ih store c' h

theorem sendLoop_prunes_permanent (env : Env) (msg : Str) (rid pub : Int) :
    ∀ (cs : List Chat) (store : Store) (chat : Chat) (e : Str),
      chat ∈ cs → env.send chat.id msg = some e →
      isPermanentTelegramError e = true →
      ∀ c' ∈ (sendLoop env msg rid pub store cs).1.chats, c'.id ≠ chat.id := by
  intro cs
  induction cs with
  | nil => intro store chat e hmem; exact absurd hmem (List.not_mem_nil chat)
  | cons c rest ih =>
    intro store chat e hmem hsend hperm c' hc'
    rcases List.mem_cons.mp hmem with heq | hmem2
    · subst heq
      rw [sendLoop] at hc'
      rw [hsend] at hc'
      simp only [] at hc'
      rw [if_pos hperm] at hc'
      have h2 := sendLoop_chats_subset env msg rid pub rest
        (store.removeChat chat.id) c' hc'
      simp only [Store.removeChat, List.mem_filter] at h2
      intro hid
      rw [hid] at h2
      simp at h2
    · rw [sendLoop] at hc'
      match hs : env.send c.id msg with
      | none =>
        rw [hs] at hc'
        exact ih store chat e hmem2 hsend hperm c' hc'
      | some e2 =>
        rw [hs] at hc'
        simp only [] at hc'
        by_cases hp : isPermanentTelegramError e2 = true
        · rw [if_pos hp] at hc'
          exact ih (store.removeChat c.id) chat e hmem2 hsend hperm c' hc'
        · rw [if_neg hp] at hc'
          exact ih store chat e hmem2 hsend hperm c' hc'

/-! ## C6 -/

/-- C6: when the delivery of a release notification to a destination fails
with a permanent-failure signature, the orchestrator removes that
destination from the ledger within the same per-release step: no chat with
that id remains in the resulting destination list. -/
theorem permanent_failure_prunes (env : Env) (store : Store) (repo : Repository)
    (r : Release) (chat : Chat) (e : Str)
    (hnp : store.isProcessed repo.owner repo.name r.id = false)
    (hmem : chat ∈ store.chats)
    (hsend : env.send chat.id (composeFor env repo r) = some e)
    (hperm : isPermanentTelegramError e = true) :
    ∀ c' ∈ (processRelease env store repo r).1.chats, c'.id ≠ chat.id := by
  intro c' hc'
  rw [processRelease] at hc'
  rw [if_neg (by rw [hnp]; exact Bool.false_ne_true)] at hc'
  simp only [] at hc'
  have hmem2 : chat ∈ store.listChats :=
    (sortChatsById_perm store.chats).mem_iff.mpr hmem
  have hchats : ((sendLoop env (composeFor env repo r) r.id r.publishedAt store
      store.listChats).1.markProcessed repo.owner repo.name r.id r.tagName
      r.publishedAt).chats
      = (sendLoop env (composeFor env repo r) r.id r.publishedAt store
          store.listChats).1.chats := rfl
  rw [hchats] at hc'
  exact sendLoop_prunes_permanent env (composeFor env repo r) r.id r.publishedAt
    store.listChats store chat e hmem2 hsend hperm c' hc'

def envPermFail : Env :=
  ⟨fun _ _ => none, fun _ _ => some ("chat not found".data), fun _ _ _ => [], false,
    fun _ => [], 8, 2500, 0⟩

theorem permanent_failure_prunes_witness :
    storeFresh.isProcessed repoW.owner repoW.name relW.id = false
    ∧ chatW ∈ storeFresh.chats
    ∧ envPermFail.send chatW.id (composeFor envPermFail repoW relW)
        = some ("chat not found".data)
    ∧ isPermanentTelegramError ("chat not found".data) = true
    ∧ ∀ c' ∈ (processRelease envPermFail storeFresh repoW relW).1.chats,
        c'.id ≠ chatW.id :=
  ⟨by decide, by decide, rfl, by decide,
    permanent_failure_prunes envPermFail storeFresh repoW relW chatW
      ("chat not found".data) (by decide) (by decide) rfl (by decide)⟩

/-! ## Escaping machinery (C5) -/

/-- A string that cannot break the HTML-subset markup: it contains no raw
angle bracket, double quote or single quote (`html.EscapeString` leaves
none of these in its output). -/
def htmlSafe (s : Str) : Prop :=
  ∀ c ∈ s, c ≠ '<' ∧ c ≠ '>' ∧ c ≠ '"' ∧ c ≠ Char.ofNat 39

instance (s : Str) : Decidable (htmlSafe s) := by
  unfold htmlSafe
  infer_instance

theorem htmlSafe_append {a b : Str} (ha : htmlSafe a) (hb : htmlSafe b) :
    htmlSafe (a ++ b) := by
  intro c hc
  rcases List.mem_append.mp hc with h | h
  · exact ha c h
  · exact hb c h

theorem htmlSafe_of_subset {a b : Str} (hsub : ∀ c ∈ a, c ∈ b) (hb : htmlSafe b) :
    htmlSafe a := fun c hc => hb c (hsub c hc)

theorem escapeChar_safe (c : Char) : htmlSafe (escapeChar c) := by
  unfold escapeChar
  by_cases h1 : c = '&'
  · rw [if_pos h1]; decide
  · rw [if_neg h1]
    by_cases h2 : c = Char.ofNat 39
    · rw [if_pos h2]; decide
    · rw [if_neg h2]
      by_cases h3 : c = '<'
      · rw [if_pos h3]; decide
      · rw [if_neg h3]
        by_cases h4 : c = '>'
        · rw [if_pos h4]; decide
        · rw [if_neg h4]
          by_cases h5 : c = '"'
          · rw [if_pos h5]; decide
          · rw [if_neg h5]
            intro x hx
            rw [List.mem_singleton.mp hx]
            exact ⟨h3, h4, h5, h2⟩

theorem escapeString_safe (s : Str) : htmlSafe (escapeString s) := by
  intro c hc
  rcases List.mem_flatMap.mp hc with ⟨x, _, hcx⟩
  exact escapeChar_safe x c hcx

theorem stripFormatting_safe (s : Str) : htmlSafe (stripFormatting s) :=
  escapeString_safe _

theorem trimSpace_subset (s : Str) : ∀ c ∈ trimSpace s, c ∈ s := by
  intro c hc
  unfold trimSpace at hc
  rw [List.mem_reverse] at hc
  have h1 := (List.dropWhile_sublist (l := (s.dropWhile goIsSpace).reverse) goIsSpace).subset hc
  rw [List.mem_reverse] at h1
  exact (List.dropWhile_sublist (l := s) goIsSpace).subset h1

theorem splitChar_subset (sep : Char) (s : Str) :
    ∀ p ∈ splitChar sep s, ∀ c ∈ p, c ∈ s := by
  induction s with
  | nil =>
    intro p hp c hc
    simp [splitChar] at hp
    rw [hp] at hc
    simp at hc
  | cons x t ih =>
    intro p hp c hc
    rw [splitChar] at hp
    match hsp : splitChar sep t with
    | [] =>
      rw [hsp] at hp
      simp at hp
      rw [hp] at hc
      simp at hc
    | q :: qs =>
      rw [hsp] at hp
      simp only [] at hp
      by_cases hx : x = sep
      · rw [if_pos hx] at hp
        rcases List.mem_cons.mp hp with hp | hp
        · rw [hp] at hc; simp at hc
        · exact List.mem_cons_of_mem x (ih p (hsp ▸ hp) c hc)
      · rw [if_neg hx] at hp
        rcases List.mem_cons.mp hp with hp | hp
        · rw [hp] at hc
          rcases List.mem_cons.mp hc with hc | hc
          · rw [hc]; exact List.mem_cons_self x t
          · exact List.mem_cons_of_mem x
              (ih q (hsp ▸ List.mem_cons_self q qs) c hc)
        · exact List.mem_cons_of_mem x
            (ih p (hsp ▸ List.mem_cons_of_mem q hp) c hc)

theorem truncBullet_safe {b : Str} (hb : htmlSafe b) : htmlSafe (truncBullet b) := by
  unfold truncBullet
  by_cases hl : b.length > 140
  · rw [if_pos hl]
    exact htmlSafe_append
      (htmlSafe_of_subset (fun c hc => List.mem_of_mem_take hc) hb) (by decide)
  · rw [if_neg hl]; exact hb

theorem capParagraph_safe {b : Str} (hb : htmlSafe b) : htmlSafe (capParagraph b) := by
  unfold capParagraph
  by_cases hl : b.length > 200
  · rw [if_pos hl]
    exact htmlSafe_append
      (htmlSafe_of_subset (fun c hc => List.mem_of_mem_take hc) hb) (by decide)
  · rw [if_neg hl]; exact hb

theorem collectBullets_safe (mb : Nat) (lines : List Str) :
    ∀ (count : Nat) (b : Str), b ∈ collectBullets mb lines count → htmlSafe b := by
  induction lines with
  | nil => intro count b hb; simp [collectBullets] at hb
  | cons line rest ih =>
    intro count b hb
    rw [collectBullets] at hb
    match hbl : bulletLineContent line with
    | none =>
      rw [hbl] at hb
      exact ih count b hb
    | some cap =>
      rw [hbl] at hb
      simp only [] at hb
      by_cases hskip : isSkippableBullet (stripFormatting cap) = true
      · rw [if_pos hskip] at hb
        exact ih count b hb
      · rw [if_neg hskip] at hb
        have hsafe : htmlSafe (truncBullet (stripFormatting cap)) :=
          truncBullet_safe (stripFormatting_safe cap)
        by_cases hlen : (!(truncBullet (stripFormatting cap)).isEmpty
            && decide ((truncBullet (stripFormatting cap)).length > 10)) = true
        · rw [if_pos hlen] at hb
          by_cases hcap : mb ≤ count + 1
          · rw [if_pos hcap] at hb
            rw [List.mem_singleton.mp hb]
            exact hsafe
          · rw [if_neg hcap] at hb
            rcases List.mem_cons.mp hb with hb | hb
            · rw [hb]; exact hsafe
            · exact ih (count + 1) b hb
        · rw [if_neg hlen] at hb
          exact ih count b hb

theorem collectParagraphs_safe (mb : Nat) (ps : List Str)
    (hps : ∀ p ∈ ps, htmlSafe p) :
    ∀ (count : Nat) (b : Str), b ∈ collectParagraphs mb ps count → htmlSafe b := by
  induction ps with
  | nil => intro count b hb; simp [collectParagraphs] at hb
  | cons p rest ih =>
    intro count b hb
    have hp := hps p (List.mem_cons_self p rest)
    have hrest := fun q hq => hps q (List.mem_cons_of_mem p hq)
    rw [collectParagraphs] at hb
    simp only [] at hb
    by_cases hshort : (trimSpace p).length < 10
    · rw [if_pos hshort] at hb
      exact ih hrest count b hb
    · rw [if_neg hshort] at hb
      by_cases hhdr : (("#".data).isPrefixOf (trimSpace p) || isAllCaps (trimSpace p)) = true
      · rw [if_pos hhdr] at hb
        exact ih hrest count b hb
      · rw [if_neg hhdr] at hb
        have hsafe : htmlSafe (capParagraph (trimSpace p)) :=
          capParagraph_safe (htmlSafe_of_subset (trimSpace_subset p) hp)
        by_cases hcap : mb ≤ count + 1
        · rw [if_pos hcap] at hb
          rw [List.mem_singleton.mp hb]
          exact hsafe
        · rw [if_neg hcap] at hb
          rcases List.mem_cons.mp hb with hb | hb
          · rw [hb]; exact hsafe
          · exact ih hrest (count + 1) b hb

theorem extractParagraphs_safe (md : Str) (mb mc : Nat) :
    ∀ b ∈ extractParagraphs md mb mc, htmlSafe b := by
  intro b hb
  rw [extractParagraphs] at hb
  have htext : htmlSafe
      (if (stripFormatting md).length > mc
        then (stripFormatting md).take mc ++ ['…'] else stripFormatting md) := by
    by_cases hl : (stripFormatting md).length > mc
    · rw [if_pos hl]
      exact htmlSafe_append
        (htmlSafe_of_subset (fun c hc => List.mem_of_mem_take hc)
          (stripFormatting_safe md))
        (by decide)
    · rw [if_neg hl]
      exact stripFormatting_safe md
  refine collectParagraphs_safe mb _ (fun p hpmem => ?_) 0 b hb
  exact htmlSafe_of_subset (splitChar_subset ('\n') _ p hpmem) htext

theorem takeBullets_safe (md : Str) (mb mc : Nat) :
    ∀ b ∈ takeBullets md mb mc, htmlSafe b := by
  intro b hb
  rw [takeBullets] at hb
  by_cases he : (collectBullets mb (splitChar ('\n') md) 0).isEmpty = true
  · rw [if_pos he] at hb
    exact extractParagraphs_safe md mb mc b hb
  · rw [if_neg he] at hb
    exact collectBullets_safe mb _ 0 b hb

/-! ## C5 -/

def evilInput : ComposeInput :=
  ⟨("acme/widget".data), ("v1".data), ("x\x22><i>".data), [], []⟩

/-- C5 is refuted as stated: the release URL is interpolated into the
message verbatim.  For a URL containing a raw quote and angle brackets the
rendered message contains those characters unescaped (and does not contain
the escaped form), so repository-controlled input can produce malformed
markup. -/
theorem url_not_escaped_counterexample :
    containsSub (buildHTML evilInput ⟨8, 2500⟩ []) (("x\x22><i>".data)) = true
    ∧ containsSub (buildHTML evilInput ⟨8, 2500⟩ [])
        (escapeString (("x\x22><i>".data))) = false
    ∧ escapeString (("x\x22><i>".data)) ≠ ("x\x22><i>".data) :=
  ⟨by decide, by decide, by decide⟩

/-- C5 (amended): every piece of repository-controlled text interpolated
into the rendered message is escaped for the HTML subset — repository full
name, tag and commentary via `html.EscapeString`, body-derived bullets via
the summarizer whose final step escapes — with the exception of the
release URL, which is interpolated verbatim (it occurs as a contiguous
substring of the output). -/
theorem interpolated_text_escaped_except_url :
    (∀ s : Str, htmlSafe (escapeString s))
    ∧ (∀ (md : Str) (mb mc : Nat), ∀ b ∈ takeBullets md mb mc, htmlSafe b)
    ∧ ∀ (inp : ComposeInput) (opt : ComposeOptions) (dateStr : Str),
        List.IsInfix inp.url (buildHTML inp opt dateStr) := by
  refine ⟨escapeString_safe, takeBullets_safe, ?_⟩
  intro inp opt dateStr
  refine ⟨("🔥 <b>".data) ++ escapeString inp.repoFull ++ ("</b> ".data)
    ++ ("<a href=\"".data),
    ("\">".data) ++ escapeString inp.tag ++ ("</a>\n".data)
      ++ ("📅 ".data) ++ dateStr ++ ("\n".data)
      ++ bulletSection (takeBullets inp.bodyMD opt.maxBullets opt.maxChars)
      ++ ("\\n<a href=\"".data) ++ inp.url
      ++ ("\">📖 Полный changelog</a>".data)
      ++ advisorSection inp.advisor, ?_⟩
  show _ = buildHTML inp opt dateStr
  rw [buildHTML]
  simp only [List.append_assoc]

theorem interpolated_text_escaped_except_url_witness :
    (("Fix bug in the parser".data) ∈ takeBullets (("- Fix bug in the parser").data) 8 2500
      ∧ htmlSafe (("Fix bug in the parser".data)))
    ∧ List.IsInfix (("https://example.com/rel").data)
        (buildHTML ⟨("acme/widget".data), ("v1".data), ("https://example.com/rel".data),
          [], []⟩ ⟨8, 2500⟩ []) :=
  ⟨⟨by decide,
    interpolated_text_escaped_except_url.2.1 (("- Fix bug in the parser").data) 8 2500
      (("Fix bug in the parser").data) (by decide)⟩,
    interpolated_text_escaped_except_url.2.2
      ⟨("acme/widget".data), ("v1".data), ("https://example.com/rel".data), [], []⟩
      ⟨8, 2500⟩ []⟩

/-! ## Chunker lemmas (C8) -/

theorem lastIdxOf_sound (c : Char) :
    ∀ (l : Str) (j : Nat), lastIdxOf c l = some j → l[j]? = some c := by
  intro l
  induction l with
  | nil => intro j h; simp [lastIdxOf] at h
  | cons x xs ih =>
    intro j h
    rw [lastIdxOf] at h
    match hm : lastIdxOf c xs with
    | some j2 =>
      rw [hm] at h
      simp only [Option.some.injEq] at h
      rw [← h]
      simpa using ih j2 hm
    | none =>
      rw [hm] at h
      by_cases hx : x = c
      · rw [if_pos hx] at h
        simp only [Option.some.injEq] at h
        rw [← h, hx]
        simp
      · rw [if_neg hx] at h
        simp at h

theorem lastIdxOf_complete (c : Char) :
    ∀ (l : Str) (i : Nat), l[i]? = some c →
      ∃ j, lastIdxOf c l = some j ∧ i ≤ j := by
  intro l
  induction l with
  | nil => intro i h; simp at h
  | cons x xs ih =>
    intro i h
    match i with
    | 0 =>
      rw [List.getElem?_cons_zero] at h
      simp only [Option.some.injEq] at h
      rw [lastIdxOf]
      match hm : lastIdxOf c xs with
      | some j2 => exact ⟨j2 + 1, rfl, Nat.zero_le _⟩
      | none =>
        rw [if_pos h]
        exact ⟨0, rfl, Nat.le_refl 0⟩
    | i2 + 1 =>
      rw [List.getElem?_cons_succ] at h
      rcases ih i2 h with ⟨j2, hj2, hle⟩
      rw [lastIdxOf, hj2]
      exact ⟨j2 + 1, rfl, Nat.succ_le_succ hle⟩

theorem lastIdxBelow_sound (text : Str) (c : Char) (bound : Nat) (j : Nat)
    (h : lastIdxBelow text c bound = some j) :
    j < bound ∧ text[j]? = some c := by
  rw [lastIdxBelow] at h
  have hs := lastIdxOf_sound c (text.take bound) j h
  have hjlt : j < (text.take bound).length := by
    rcases List.getElem?_eq_some_iff.mp hs with ⟨hlt, _⟩
    exact hlt
  rw [List.length_take] at hjlt
  have hjb : j < bound := Nat.lt_of_lt_of_le hjlt (Nat.min_le_left _ _)
  rw [List.getElem?_take_of_lt hjb] at hs
  exact ⟨hjb, hs⟩

theorem lastIdxBelow_complete (text : Str) (c : Char) (bound : Nat) (i : Nat)
    (hi : i < bound) (h : text[i]? = some c) :
    ∃ j, lastIdxBelow text c bound = some j ∧ i ≤ j := by
  rw [lastIdxBelow]
  have htake : (text.take bound)[i]? = some c := by
    rw [List.getElem?_take_of_lt hi]
    exact h
  exact lastIdxOf_complete c (text.take bound) i htake

/-- When a character of the class occurs in the back half of the window,
the scan returns its last occurrence, which lies in the back half. -/
theorem lastIdxBelow_back_half (text : Str) (c : Char)
    (hex : ∃ i, 2000 < i ∧ i < 4000 ∧ text[i]? = some c) :
    ∃ j, lastIdxBelow text c 4000 = some j ∧ 2000 < j ∧ j < 4000
      ∧ text[j]? = some c := by
  rcases hex with ⟨i, hi1, hi2, hic⟩
  rcases lastIdxBelow_complete text c 4000 i hi2 hic with ⟨j, hj, hij⟩
  rcases lastIdxBelow_sound text c 4000 j hj with ⟨hjb, hjc⟩
  exact ⟨j, hj, Nat.lt_of_lt_of_le hi1 hij, hjb, hjc⟩

theorem lastIdxBelow_none_back_half (text : Str) (c : Char)
    (hnex : ¬ ∃ i, 2000 < i ∧ i < 4000 ∧ text[i]? = some c) :
    lastIdxBelow text c 4000 = none
    ∨ ∃ j, lastIdxBelow text c 4000 = some j ∧ j ≤ 2000 := by
  match hm : lastIdxBelow text c 4000 with
  | none => exact Or.inl rfl
  | some j =>
    rcases lastIdxBelow_sound text c 4000 j hm with ⟨hjb, hjc⟩
    by_cases hj : 2000 < j
    · exact absurd ⟨j, hj, hjb, hjc⟩ hnex
    · exact Or.inr ⟨j, rfl, Nat.not_lt.mp hj⟩

theorem chunkPoint_bounds (rem : Str) (maxSize : Nat) (hm : 1 ≤ maxSize)
    (h : maxSize < rem.length) :
    1 ≤ chunkPoint rem maxSize ∧ chunkPoint rem maxSize ≤ maxSize := by
  rw [chunkPoint, findBreakPoint, if_neg (Nat.not_le.mpr h)]
  cases hn : lastIdxBelow rem ('\n') maxSize with
  | some j =>
    have hj := lastIdxBelow_sound rem ('\n') maxSize j hn
    simp only []
    by_cases hcond : maxSize / 2 < j
    · rw [if_pos hcond]
      simp only [Option.getD_some]
      omega
    · rw [if_neg hcond]
      cases hs : lastIdxBelow rem (' ') maxSize with
      | some k =>
        have hk := lastIdxBelow_sound rem (' ') maxSize k hs
        simp only []
        by_cases hcond2 : maxSize / 2 < k
        · rw [if_pos hcond2]
          simp only [Option.getD_some]
          omega
        · rw [if_neg hcond2]
          simp only [Option.getD_none]
          omega
      | none =>
        simp only [Option.getD_none]
        omega
  | none =>
    simp only []
    cases hs : lastIdxBelow rem (' ') maxSize with
    | some k =>
      have hk := lastIdxBelow_sound rem (' ') maxSize k hs
      simp only []
      by_cases hcond2 : maxSize / 2 < k
      · rw [if_pos hcond2]
        simp only [Option.getD_some]
        omega
      · rw [if_neg hcond2]
        simp only [Option.getD_none]
        omega
    | none =>
      simp only [Option.getD_none]
      omega

/-- Concatenating the chunks reproduces the original text up to runs of
newline/space characters removed at chunk boundaries. -/
inductive BoundaryJoins : List Str → Str → Prop where
  | nil : BoundaryJoins [] []
  | cons (c w : Str) (rest : List Str) (t : Str) :
      (∀ x ∈ w, x = '\n' ∨ x = ' ') → BoundaryJoins rest t →
      BoundaryJoins (c :: rest) (c ++ (w ++ t))

theorem chunkLoop_sizes (maxSize : Nat) (hm : 1 ≤ maxSize) :
    ∀ (fuel : Nat) (rem : Str), rem.length ≤ fuel →
      ∀ ch ∈ chunkLoop fuel rem maxSize, ch.length ≤ maxSize := by
  intro fuel
  induction fuel with
  | zero =>
    intro rem hlen ch hch
    have hnil : rem = [] := List.eq_nil_of_length_eq_zero (Nat.le_zero.mp hlen)
    subst hnil
    simp [chunkLoop] at hch
  | succ fuel ih =>
    intro rem hlen ch hch
    rw [chunkLoop] at hch
    by_cases hbig : maxSize < rem.length
    · rw [if_pos hbig] at hch
      have hb := chunkPoint_bounds rem maxSize hm hbig
      rcases List.mem_cons.mp hch with hch | hch
      · rw [hch, List.length_take]
        omega
      · refine ih (dropBoundaryWS ((rem.drop (chunkPoint rem maxSize)))) ?_ ch hch
        have h1 := (List.dropWhile_sublist
          (l := rem.drop (chunkPoint rem maxSize))
          (fun c => c = '\n' || c = ' ')).length_le
        rw [dropBoundaryWS]
        rw [List.length_drop] at h1
        omega
    · rw [if_neg hbig] at hch
      by_cases hpos : rem.length > 0
      · rw [if_pos hpos] at hch
        rw [List.mem_singleton.mp hch]
        omega
      · rw [if_neg hpos] at hch
        simp at hch

theorem chunkLoop_joins (maxSize : Nat) (hm : 1 ≤ maxSize) :
    ∀ (fuel : Nat) (rem : Str), rem.length ≤ fuel →
      BoundaryJoins (chunkLoop fuel rem maxSize) rem := by
  intro fuel
  induction fuel with
  | zero =>
    intro rem hlen
    have hnil : rem = [] := List.eq_nil_of_length_eq_zero (Nat.le_zero.mp hlen)
    subst hnil
    rw [chunkLoop]
    simp only [List.length_nil, gt_iff_lt, Nat.lt_irrefl, if_false]
    exact BoundaryJoins.nil
  | succ fuel ih =>
    intro rem hlen
    rw [chunkLoop]
    by_cases hbig : maxSize < rem.length
    · rw [if_pos hbig]
      have hb := chunkPoint_bounds rem maxSize hm hbig
      have hrec : BoundaryJoins
          (chunkLoop fuel (dropBoundaryWS (rem.drop (chunkPoint rem maxSize))) maxSize)
          (dropBoundaryWS (rem.drop (chunkPoint rem maxSize))) := by
        refine ih _ ?_
        have h1 := (List.dropWhile_sublist
          (l := rem.drop (chunkPoint rem maxSize))
          (fun c => c = '\n' || c = ' ')).length_le
        rw [dropBoundaryWS]
        rw [List.length_drop] at h1
        omega
      have hw : ∀ x ∈ (rem.drop (chunkPoint rem maxSize)).takeWhile
          (fun c => c = '\n' || c = ' '), x = '\n' ∨ x = ' ' := by
        intro x hx
        have hp := List.mem_takeWhile_imp hx
        rcases Bool.or_eq_true _ _ |>.mp hp with h1 | h1
        · exact Or.inl (by simpa using h1)
        · exact Or.inr (by simpa using h1)
      have hjoin := BoundaryJoins.cons (rem.take (chunkPoint rem maxSize))
        ((rem.drop (chunkPoint rem maxSize)).takeWhile (fun c => c = '\n' || c = ' '))
        (chunkLoop fuel (dropBoundaryWS (rem.drop (chunkPoint rem maxSize))) maxSize)
        (dropBoundaryWS (rem.drop (chunkPoint rem maxSize))) hw hrec
      have hsplit : rem.take (chunkPoint rem maxSize)
          ++ ((rem.drop (chunkPoint rem maxSize)).takeWhile (fun c => c = '\n' || c = ' ')
            ++ dropBoundaryWS (rem.drop (chunkPoint rem maxSize))) = rem := by
        rw [dropBoundaryWS, List.takeWhile_append_dropWhile, List.take_append_drop]
      rw [hsplit] at hjoin
      exact hjoin
    · rw [if_neg hbig]
      by_cases hpos : rem.length > 0
      · rw [if_pos hpos]
        have := BoundaryJoins.cons rem [] [] [] (by simp) BoundaryJoins.nil
        simpa using this
      · rw [if_neg hpos]
        have hnil : rem = [] := List.eq_nil_of_length_eq_zero (by omega)
        subst hnil
        exact BoundaryJoins.nil

theorem chunkPoint_spec (text : Str) (h : 4000 < text.length) :
    ((∃ i, 2000 < i ∧ i < 4000 ∧ text[i]? = some ('\n')) →
      ∃ j, 2000 < j ∧ j < 4000 ∧ text[j]? = some ('\n')
        ∧ chunkPoint text 4000 = j + 1)
    ∧ ((¬ ∃ i, 2000 < i ∧ i < 4000 ∧ text[i]? = some ('\n')) →
        ((∃ i, 2000 < i ∧ i < 4000 ∧ text[i]? = some (' ')) →
          ∃ j, 2000 < j ∧ j < 4000 ∧ text[j]? = some (' ')
            ∧ chunkPoint text 4000 = j + 1)
        ∧ ((¬ ∃ i, 2000 < i ∧ i < 4000 ∧ text[i]? = some (' ')) →
            chunkPoint text 4000 = 4000)) := by
  have hnotle : ¬ text.length ≤ 4000 := Nat.not_le.mpr h
  constructor
  · intro hex
    rcases lastIdxBelow_back_half text ('\n') hex with ⟨j, hj, hj1, hj2, hjc⟩
    refine ⟨j, hj1, hj2, hjc, ?_⟩
    rw [chunkPoint, findBreakPoint, if_neg hnotle, hj]
    simp only []
    rw [if_pos (show (4000 : Nat) / 2 < j by omega)]
    rfl
  · intro hnex
    rcases lastIdxBelow_none_back_half text ('\n') hnex with hnone | ⟨j, hj, hjle⟩
    · constructor
      · intro hexs
        rcases lastIdxBelow_back_half text (' ') hexs with ⟨k, hk, hk1, hk2, hkc⟩
        refine ⟨k, hk1, hk2, hkc, ?_⟩
        rw [chunkPoint, findBreakPoint, if_neg hnotle, hnone]
        simp only []
        rw [hk]
        simp only []
        rw [if_pos (show (4000 : Nat) / 2 < k by omega)]
        rfl
      · intro hnexs
        rcases lastIdxBelow_none_back_half text (' ') hnexs with hnone2 | ⟨k, hk, hkle⟩
        · rw [chunkPoint, findBreakPoint, if_neg hnotle, hnone]
          simp only []
          rw [hnone2]
          rfl
        · rw [chunkPoint, findBreakPoint, if_neg hnotle, hnone]
          simp only []
          rw [hk]
          simp only []
          rw [if_neg (show ¬ (4000 : Nat) / 2 < k by omega)]
          rfl
    · constructor
      · intro hexs
        rcases lastIdxBelow_back_half text (' ') hexs with ⟨k, hk, hk1, hk2, hkc⟩
        refine ⟨k, hk1, hk2, hkc, ?_⟩
        rw [chunkPoint, findBreakPoint, if_neg hnotle, hj]
        simp only []
        rw [if_neg (show ¬ (4000 : Nat) / 2 < j by omega), hk]
        simp only []
        rw [if_pos (show (4000 : Nat) / 2 < k by omega)]
        rfl
      · intro hnexs
        rcases lastIdxBelow_none_back_half text (' ') hnexs with hnone2 | ⟨k, hk, hkle⟩
        · rw [chunkPoint, findBreakPoint, if_neg hnotle, hj]
          simp only []
          rw [if_neg (show ¬ (4000 : Nat) / 2 < j by omega), hnone2]
          rfl
        · rw [chunkPoint, findBreakPoint, if_neg hnotle, hj]
          simp only []
          rw [if_neg (show ¬ (4000 : Nat) / 2 < j by omega), hk]
          simp only []
          rw [if_neg (show ¬ (4000 : Nat) / 2 < k by omega)]
          rfl

/-! ## C8 -/

/-- C8: `chunkHTML` at the fixed maximum 4000 splits any text into chunks
of length at most 4000; the concatenation of the chunks reproduces the
input up to the newline/space runs trimmed at chunk boundaries; and
whenever a split is needed the break point is one past the last newline of
the window if a newline occurs in its back half, otherwise one past the
last space of the window if a space occurs in its back half, otherwise the
hard 4000 boundary. -/
theorem chunker_spec (text : Str) :
    (∀ ch ∈ chunkHTML text 4000, ch.length ≤ 4000)
    ∧ BoundaryJoins (chunkHTML text 4000) text
    ∧ (4000 < text.length →
        ((∃ i, 2000 < i ∧ i < 4000 ∧ text[i]? = some ('\n')) →
          ∃ j, 2000 < j ∧ j < 4000 ∧ text[j]? = some ('\n')
            ∧ chunkPoint text 4000 = j + 1)
        ∧ ((¬ ∃ i, 2000 < i ∧ i < 4000 ∧ text[i]? = some ('\n')) →
            ((∃ i, 2000 < i ∧ i < 4000 ∧ text[i]? = some (' ')) →
              ∃ j, 2000 < j ∧ j < 4000 ∧ text[j]? = some (' ')
                ∧ chunkPoint text 4000 = j + 1)
            ∧ ((¬ ∃ i, 2000 < i ∧ i < 4000 ∧ text[i]? = some (' ')) →
                chunkPoint text 4000 = 4000))) := by
  refine ⟨?_, ?_, fun hbig => chunkPoint_spec text hbig⟩
  · intro ch hch
    rw [chunkHTML] at hch
    by_cases hle : text.length ≤ 4000
    · rw [if_pos hle] at hch
      rw [List.mem_singleton.mp hch]
      exact hle
    · rw [if_neg hle] at hch
      exact chunkLoop_sizes 4000 (by omega) text.length text (Nat.le_refl _) ch hch
  · rw [chunkHTML]
    by_cases hle : text.length ≤ 4000
    · rw [if_pos hle]
      have hj := BoundaryJoins.cons text [] [] [] (by simp) BoundaryJoins.nil
      simpa using hj
    · rw [if_neg hle]
      exact chunkLoop_joins 4000 (by omega) text.length text (Nat.le_refl _)

theorem chunker_spec_witness :
    (("hello".data) ∈ chunkHTML ("hello".data) 4000
      ∧ ("hello".data).length ≤ 4000)
    ∧ (4000 < (List.replicate 4001 'a').length
      ∧ chunkPoint (List.replicate 4001 'a') 4000 = 4000) := by
  constructor
  · exact ⟨by decide, (chunker_spec ("hello".data)).1 ("hello".data) (by decide)⟩
  · have hlen : 4000 < (List.replicate 4001 'a').length := by
      rw [List.length_replicate]
      omega
    have hnonl : ¬ ∃ i, 2000 < i ∧ i < 4000
        ∧ (List.replicate 4001 'a')[i]? = some ('\n') := by
      rintro ⟨i, h1, h2, h3⟩
      rw [List.getElem?_replicate] at h3
      split at h3
      · exact absurd (Option.some.inj h3) (by decide)
      · exact Option.noConfusion h3
    have hnosp : ¬ ∃ i, 2000 < i ∧ i < 4000
        ∧ (List.replicate 4001 'a')[i]? = some (' ') := by
      rintro ⟨i, h1, h2, h3⟩
      rw [List.getElem?_replicate] at h3
      split at h3
      · exact absurd (Option.some.inj h3) (by decide)
      · exact Option.noConfusion h3
    exact ⟨hlen,
      (((chunker_spec (List.replicate 4001 'a')).2.2 hlen).2 hnonl).2 hnosp⟩
